import Mathlib

/-!
Shallow embedding of the faas-cli template synchronization engine
(`commands/fetch_templates.go`, `commands/template_pull_stack.go`).

Filesystem directories are modelled as lists of entries in directory-listing
order.  External effects (temporary-directory creation, git invocations,
bundle copies, metadata writes) are recorded in an explicit effect trace.
Fallible external collaborators (the git clone/checkout tool, the metadata
file write) are modelled by boolean success parameters; the low-level file
copy (`builder.CopyFiles`, an external collaborator) is modelled as a
wholesale replacement of the destination bundle's content that always
succeeds.
-/

namespace FaasCli

/-- Provenance record, mirroring the Go struct `TemplateMeta`
(`fetch_templates.go`): repository, ref name, sha, written-at timestamp.
The timestamp is modelled as an opaque string. -/
structure TemplateMeta where
  repository : String
  refName : String
  sha : String
  writtenAt : String
deriving DecidableEq, Repr

/-- One entry of the local template cache directory: its name, whether it is
a directory, its file content (a bundle's scaffold files, as one opaque
blob), and the decoded `meta.json` sidecar if one has been written. -/
structure CacheEntry where
  name : String
  isDir : Bool
  content : String
  meta : Option TemplateMeta
deriving DecidableEq, Repr

/-- One entry of the extracted (retrieved) tree's template root. -/
structure FsEntry where
  name : String
  isDir : Bool
  content : String
deriving DecidableEq, Repr

/-- The git commands `fetchTemplates` can invoke for the clone, mirroring
`versioncontrol.GitCloneDefault`, `GitCloneFullDepth`, `GitCloneBranch`. -/
inductive GitCmd where
  | cloneDefault : GitCmd
  | cloneFullDepth : GitCmd
  | cloneBranch : String → GitCmd
deriving DecidableEq, Repr

/-- Observable side effects of a synchronization call, in order. -/
inductive Effect where
  | mkTempDir : Effect
  | invoke : GitCmd → String → Effect
  | checkout : String → Effect
  | copyBundle : String → String → Effect
  | writeMeta : String → Effect
deriving DecidableEq, Repr

/-- Result of `moveTemplates`: the protected and fetched language lists and
error mirror the Go return values; `cache` is the state of the local
template directory after the call (the Go function mutates the real
filesystem), and `effects` the copy/meta-write trace. -/
structure MoveOutcome where
  protectedLanguages : List String
  fetchedLanguages : List String
  err : Option String
  cache : List CacheEntry
  effects : List Effect
deriving DecidableEq, Repr

/-- `canWriteLanguage` from `fetch_templates.go`: overwrite forces true,
otherwise the language must not already exist. -/
def canWriteLanguage (existingLanguages : List String) (language : String)
    (overwriteTemplate : Bool) : Bool :=
  if overwriteTemplate then true
  else !(existingLanguages.contains language)

/-- The existing bundle names of the cache: names of the immediate
subdirectories only, mirroring the `entry.IsDir()` filter in the first loop
of `moveTemplates`. -/
def existingLanguagesOf (cache : List CacheEntry) : List String :=
  (cache.filter (fun e => e.isDir)).map (fun e => e.name)

/-- `builder.CopyFiles(src, dest)` at the granularity of this model: replace
the content of the entry named `dest` (keeping any stale `meta.json` decoded
earlier, which the copy does not delete), or create the entry if absent. -/
def copyInto : List CacheEntry → String → String → List CacheEntry
  | [], dest, content => [⟨dest, true, content, none⟩]
  | e :: rest, dest, content =>
    if e.name = dest then { e with isDir := true, content := content } :: rest
    else e :: copyInto rest dest content

/-- Writing `meta.json` into the bundle directory `dest`: replaces any prior
record. -/
def writeMetaInto : List CacheEntry → String → TemplateMeta → List CacheEntry
  | [], dest, m => [⟨dest, true, "", some m⟩]
  | e :: rest, dest, m =>
    if e.name = dest then { e with meta := some m } :: rest
    else e :: writeMetaInto rest dest m

/-- Look an entry up by name in a directory listing. -/
def lookupEntry : List CacheEntry → String → Option CacheEntry
  | [], _ => none
  | e :: rest, n => if e.name = n then some e else lookupEntry rest n

/-- The candidate loop of `moveTemplates` (`fetch_templates.go`): skip
non-directories; approved candidates are copied and get a metadata record
(`persistOk` tells whether the metadata write succeeds for a destination,
modelling `writeTemplateMeta`'s file write); a failing metadata write
returns the error immediately (the Go code returns `nil, nil, err`), with
the files copied so far left in place; protected candidates are recorded
with the `@ref` suffix. -/
def moveLoop (existingLanguages : List String) (overwriteTemplate : Bool)
    (repository refName sha now : String) (persistOk : String → Bool) :
    List FsEntry → List CacheEntry → List String → List String → List Effect → MoveOutcome
  | [], cache, protAcc, fetAcc, effAcc => ⟨protAcc, fetAcc, none, cache, effAcc⟩
  | entry :: rest, cache, protAcc, fetAcc, effAcc =>
    if !entry.isDir then
      moveLoop existingLanguages overwriteTemplate repository refName sha now persistOk
        rest cache protAcc fetAcc effAcc
    else
      let language := entry.name
      let refSuffix := if refName ≠ "" then "@" ++ refName else ""
      if canWriteLanguage existingLanguages language overwriteTemplate then
        let languageDest := if refName ≠ "" then language ++ "@" ++ refName else language
        let langName := if refName ≠ "" then language ++ "@" ++ refName else language
        let cache1 := copyInto cache languageDest entry.content
        let effAcc1 := effAcc ++ [Effect.copyBundle language languageDest]
        if persistOk languageDest then
          moveLoop existingLanguages overwriteTemplate repository refName sha now persistOk
            rest (writeMetaInto cache1 languageDest ⟨repository, refName, sha, now⟩)
            protAcc (fetAcc ++ [langName]) (effAcc1 ++ [Effect.writeMeta languageDest])
        else
          ⟨[], [], some "error writing template meta", cache1, effAcc1⟩
      else
        moveLoop existingLanguages overwriteTemplate repository refName sha now persistOk
          rest cache (protAcc ++ [language ++ refSuffix]) fetAcc effAcc

/-- `moveTemplates` from `fetch_templates.go`: compute existing bundle
names from the cache's immediate subdirectories, then reconcile every
candidate of the extracted tree's template root.  Directory-read errors and
the `template.yml` stat check (which only fails on exotic stat errors) are
modelled as absent. -/
def moveTemplates (cache : List CacheEntry) (extracted : List FsEntry)
    (overwriteTemplate : Bool) (repository refName sha now : String)
    (persistOk : String → Bool) : MoveOutcome :=
  moveLoop (existingLanguagesOf cache) overwriteTemplate repository refName sha now persistOk
    extracted cache [] [] []

/-- Models `strings.HasPrefix(refName, ShaPrefix)` with `ShaPrefix = "sha-"`. -/
def hasShaMarker (s : String) : Bool :=
  match s.data with
  | 's' :: 'h' :: 'a' :: '-' :: _ => true
  | _ => false

/-- Models `strings.TrimPrefix(refName, ShaPrefix)`: drop a leading `sha-`
if present, otherwise return the string unchanged. -/
def trimShaMarker (s : String) : String :=
  match s.data with
  | 's' :: 'h' :: 'a' :: '-' :: rest => ⟨rest⟩
  | _ => s

/-- One character of the character class `[a-fA-F0-9]`. -/
def isHexDigit (c : Char) : Bool :=
  (decide ('a' ≤ c) && decide (c ≤ 'f'))
    || (decide ('A' ≤ c) && decide (c ≤ 'F'))
    || (decide ('0' ≤ c) && decide (c ≤ '9'))

/-- The regular expression `^[a-fA-F0-9]{7,40}$` applied to the commit
digest in `fetchTemplates`. -/
def isValidSha (s : String) : Bool :=
  decide (7 ≤ s.data.length) && decide (s.data.length ≤ 40) && s.data.all isHexDigit

/-- Go's `%v` rendering of a string slice, used in the protected-languages
error message. -/
def goJoin : List String → String
  | [] => ""
  | [x] => x
  | x :: rest => x ++ " " ++ goJoin rest

def goStringSlice (xs : List String) : String :=
  "[" ++ goJoin xs ++ "]"

/-- Result of a `fetchTemplates` call: the returned error, the trace of
external effects in order, and the final state of the local cache. -/
structure FetchResult where
  err : Option String
  effects : List Effect
  cache : List CacheEntry
deriving DecidableEq, Repr

/-- The tail of `fetchTemplates` after clone/checkout: run `moveTemplates`,
propagate its error, otherwise fail when any language was protected
(`unable to overwrite the following: ...`), otherwise succeed. -/
def fetchFinish (templateURL refName : String) (overwriteTemplates : Bool)
    (cache : List CacheEntry) (extracted : List FsEntry) (sha now : String)
    (persistOk : String → Bool) (effs : List Effect) : FetchResult :=
  let m := moveTemplates cache extracted overwriteTemplates templateURL refName sha now persistOk
  match m.err with
  | some e => ⟨some e, effs ++ m.effects, m.cache⟩
  | none =>
    if m.protectedLanguages ≠ [] then
      ⟨some ("unable to overwrite the following: " ++ goStringSlice m.protectedLanguages),
        effs ++ m.effects, m.cache⟩
    else ⟨none, effs ++ m.effects, m.cache⟩

/-- `fetchTemplates` from `fetch_templates.go`.  `cache` is the current
local template directory listing; `extracted` is the template root of the
tree the clone would materialize; `sha` the digest `GetGitSHAFor` resolves;
`now` the metadata timestamp; `cloneOk`/`checkoutOk` model the external git
tool's success; `persistOk` models the per-destination success of the
metadata file write.  The `FAAS_DEBUG` git-log block is modelled as absent
(the variable unset). -/
def fetchTemplates (templateURL refName : String) (overwriteTemplates : Bool)
    (cache : List CacheEntry) (extracted : List FsEntry) (sha now : String)
    (persistOk : String → Bool) (cloneOk checkoutOk : Bool) : FetchResult :=
  if templateURL = "" then ⟨some "pass valid templateURL", [], cache⟩ else
  let cmd :=
    if refName ≠ "" then
      if hasShaMarker refName then GitCmd.cloneFullDepth else GitCmd.cloneBranch refName
    else GitCmd.cloneDefault
  let effs := [Effect.mkTempDir, Effect.invoke cmd templateURL]
  if !cloneOk then ⟨some "error invoking git clone", effs, cache⟩ else
  if refName ≠ "" ∧ hasShaMarker refName then
    let targetCommit := trimShaMarker refName
    if !isValidSha targetCommit then
      ⟨some ("invalid SHA format: " ++ targetCommit ++ " - must be 7-40 hex characters"),
        effs, cache⟩
    else
      let effs2 := effs ++ [Effect.checkout targetCommit]
      if !checkoutOk then
        ⟨some ("error checking out ref " ++ targetCommit), effs2, cache⟩
      else
        fetchFinish templateURL refName overwriteTemplates cache extracted sha now persistOk effs2
  else
    fetchFinish templateURL refName overwriteTemplates cache extracted sha now persistOk effs

/-- One declared template source of the stack configuration
(`stack.TemplateSource`): a name and an optional source URL (empty when
absent). -/
structure TemplateSource where
  name : String
  source : String
deriving DecidableEq, Repr

/-- The source lookup inside `pullStackTemplates`: first configured source
whose name matches, else the zero value. -/
def findTemplateSource (templateSources : List TemplateSource) (val : String) : TemplateSource :=
  match templateSources.find? (fun c => c.name == val) with
  | some c => c
  | none => ⟨"", ""⟩

/-- The body of one iteration of `pullStackTemplates`: no configured source
URL delegates to the central store (`runTemplateStorePull`, modelled by the
`storePull` oracle), otherwise pull from the configured source
(`pullTemplate`, modelled by the `pullTemplateFn` oracle).  Returns the
error of the delegate, if any. -/
def pullOne (templateSources : List TemplateSource) (storePull : String → Option String)
    (pullTemplateFn : String → String → Option String) (val : String) : Option String :=
  let templateConfig := findTemplateSource templateSources val
  if templateConfig.source = "" then storePull val
  else pullTemplateFn templateConfig.source templateConfig.name

/-- The loop of `pullStackTemplates`: process names in order, returning the
first delegate error immediately (the Go code does `return err` inside the
loop).  The second component records the names for which a pull was
attempted (the printed trace). -/
def pullStackLoop (templateSources : List TemplateSource) (storePull : String → Option String)
    (pullTemplateFn : String → String → Option String) :
    List String → List String → Option String × List String
  | [], processed => (none, processed)
  | val :: rest, processed =>
    match pullOne templateSources storePull pullTemplateFn val with
    | some e => (some e, processed ++ [val])
    | none => pullStackLoop templateSources storePull pullTemplateFn rest (processed ++ [val])

/-- `pullStackTemplates` from `template_pull_stack.go`. -/
def pullStackTemplates (missingTemplates : List String) (templateSources : List TemplateSource)
    (storePull : String → Option String)
    (pullTemplateFn : String → String → Option String) : Option String × List String :=
  pullStackLoop templateSources storePull pullTemplateFn missingTemplates []

/-- One entry of the parsed stack file's `functions` map, in Go map
iteration order; only the `Language` field is consulted by
`getMissingTemplates`. -/
structure StackFunction where
  name : String
  language : String
deriving DecidableEq, Repr

/-- The loop of `getMissingTemplates`: append the language of every
function whose template directory does not exist (`cachePresent` is the set
of names for which `os.Stat` succeeds under the templates directory). -/
def getMissingLoop (cachePresent : List String) :
    List StackFunction → List String → List String
  | [], missing => missing
  | f :: rest, missing =>
    if cachePresent.contains f.language then getMissingLoop cachePresent rest missing
    else getMissingLoop cachePresent rest (missing ++ [f.language])

/-- `getMissingTemplates` from `template_pull_stack.go`: the missing list
and the (always nil) error. -/
def getMissingTemplates (functions : List StackFunction) (cachePresent : List String) :
    List String × Option String :=
  (getMissingLoop cachePresent functions [], none)

/-- `json.Marshal` of `TemplateMeta` at the granularity of key/value
fields, in Go struct-field order, honouring the `omitempty` tags on
`ref_name` and `sha`. -/
def marshalTemplateMeta (m : TemplateMeta) : List (String × String) :=
  [("repository", m.repository)]
    ++ (if m.refName = "" then [] else [("ref_name", m.refName)])
    ++ (if m.sha = "" then [] else [("sha", m.sha)])
    ++ [("written_at", m.writtenAt)]

/-- JSON field lookup as `json.Unmarshal` fills a string field: the value
under the key, or the zero value `""` when the key is absent. -/
def lookupField (fields : List (String × String)) (key : String) : String :=
  match fields.find? (fun f => f.1 == key) with
  | some f => f.2
  | none => ""

/-- Decoding `meta.json` back into a `TemplateMeta`. -/
def unmarshalTemplateMeta (fields : List (String × String)) : TemplateMeta :=
  ⟨lookupField fields "repository", lookupField fields "ref_name",
    lookupField fields "sha", lookupField fields "written_at"⟩

/-- `writeTemplateMeta` from `fetch_templates.go` at the granularity of the
serialized object it writes to `<languageDest>/meta.json`. -/
def writeTemplateMeta (repository refName sha now : String) : List (String × String) :=
  marshalTemplateMeta ⟨repository, refName, sha, now⟩

/-- Observable outcome of the candidate loop apart from the cache state. -/
def MoveOutcome.obs (m : MoveOutcome) :
    List String × List String × Option String × List Effect :=
  (m.protectedLanguages, m.fetchedLanguages, m.err, m.effects)

/-! ## Helper lemmas -/

/-- The loop of `getMissingTemplates` appends exactly the declared languages
absent from the cache, in iteration order. -/
theorem getMissingLoop_eq (cachePresent : List String) :
    ∀ (functions : List StackFunction) (missing : List String),
      getMissingLoop cachePresent functions missing
        = missing ++ (functions.map (fun f => f.language)).filter
            (fun l => !(cachePresent.contains l))
  | [], missing => by simp [getMissingLoop]
  | f :: rest, missing => by
    by_cases h : f.language ∈ cachePresent
    · simp [getMissingLoop, h, getMissingLoop_eq cachePresent rest missing]
    · simp [getMissingLoop, h, getMissingLoop_eq cachePresent rest (missing ++ [f.language]),
        List.append_assoc]

/-! ## C4 -/

/-- Claim C4, counterexample: two declared functions sharing the missing
language `perl` make `getMissingTemplates` return `perl` twice, so the
result is not duplicate-free and is not the set difference L − C. -/
theorem C4_counterexample :
    (getMissingTemplates [⟨"f1", "perl"⟩, ⟨"f2", "perl"⟩] []).1 = ["perl", "perl"]
      ∧ ¬ (getMissingTemplates [⟨"f1", "perl"⟩, ⟨"f2", "perl"⟩] []).1.Nodup := by
  decide

/-- Claim C4, amended: `getMissingTemplates` returns the languages of the
declared functions absent from the cache, one entry per declared function
and in function-iteration order (so duplicates occur when several functions
share a missing language); as a set the result equals the set difference
L − C, and the error result is always nil. -/
theorem C4_missing_templates_amended (functions : List StackFunction)
    (cachePresent : List String) :
    (getMissingTemplates functions cachePresent).1
        = (functions.map (fun f => f.language)).filter (fun l => !(cachePresent.contains l))
      ∧ (getMissingTemplates functions cachePresent).2 = none
      ∧ ∀ l, l ∈ (getMissingTemplates functions cachePresent).1
          ↔ (l ∈ functions.map (fun f => f.language) ∧ l ∉ cachePresent) := by
  refine ⟨by simp [getMissingTemplates, getMissingLoop_eq], rfl, ?_⟩
  intro l
  simp [getMissingTemplates, getMissingLoop_eq]

/-! ## C5 -/

/-- Claim C5, counterexample: with two missing names `a` and `b` both
configured with sources, a failure pulling `a` makes `pullStackTemplates`
return that error with only `a` processed; `b` is never attempted. -/
theorem C5_counterexample :
    pullStackTemplates ["a", "b"] [⟨"a", "urlA"⟩, ⟨"b", "urlB"⟩] (fun _ => none)
        (fun src _ => if src = "urlA" then some "boom" else none)
      = (some "boom", ["a"]) := by
  decide

/-- Claim C5, amended: names are processed in order until the first
failure; when pulling the first name fails, `pullStackTemplates` returns
that error immediately and the remaining names are not processed. -/
theorem C5_batch_abort_amended (templateSources : List TemplateSource)
    (storePull : String → Option String)
    (pullTemplateFn : String → String → Option String)
    (val : String) (rest : List String) (e : String)
    (hfail : pullOne templateSources storePull pullTemplateFn val = some e) :
    pullStackTemplates (val :: rest) templateSources storePull pullTemplateFn
      = (some e, [val]) := by
  simp [pullStackTemplates, pullStackLoop, hfail]

/-- Witness for C5: a concrete two-name batch where the first pull fails. -/
theorem C5_batch_abort_amended_witness :
    pullStackTemplates ["a", "b"] [⟨"a", "urlA"⟩, ⟨"b", "urlB"⟩] (fun _ => none)
        (fun src _ => if src = "urlA" then some "kaput" else none)
      = (some "kaput", ["a"]) :=
  C5_batch_abort_amended [⟨"a", "urlA"⟩, ⟨"b", "urlB"⟩] (fun _ => none)
    (fun src _ => if src = "urlA" then some "kaput" else none) "a" ["b"] "kaput" (by decide)

/-! ## C8 -/

/-- Claim C8: decoding the serialized provenance record written by
`writeTemplateMeta` reproduces exactly the repository, ref name and digest
supplied at write time, and the serialized object carries the `ref_name`
and `sha` keys exactly when those values are non-empty. -/
theorem C8_meta_roundtrip (repository refName sha now : String) :
    unmarshalTemplateMeta (writeTemplateMeta repository refName sha now)
        = ⟨repository, refName, sha, now⟩
      ∧ (writeTemplateMeta repository refName sha now).map Prod.fst
          = ["repository"]
              ++ (if refName = "" then [] else ["ref_name"])
              ++ (if sha = "" then [] else ["sha"])
              ++ ["written_at"] := by
  by_cases hr : refName = "" <;> by_cases hs : sha = "" <;>
    simp [writeTemplateMeta, marshalTemplateMeta, unmarshalTemplateMeta, lookupField,
      List.find?, hr, hs]

/-- Non-directory entries of the extracted tree are skipped outright:
running the candidate loop on the directory entries only is the same
computation. -/
theorem moveLoop_filter_isDir (ex : List String) (ow : Bool)
    (repo ref sha now : String) (p : String → Bool) :
    ∀ (candidates : List FsEntry) (cache : List CacheEntry)
      (pAcc fAcc : List String) (eAcc : List Effect),
      moveLoop ex ow repo ref sha now p (candidates.filter (fun e => e.isDir))
          cache pAcc fAcc eAcc
        = moveLoop ex ow repo ref sha now p candidates cache pAcc fAcc eAcc
  | [], _, _, _, _ => rfl
  | entry :: rest, cache, pAcc, fAcc, eAcc => by
    cases he : entry.isDir with
    | false =>
      simp [List.filter_cons, he, moveLoop,
        moveLoop_filter_isDir ex ow repo ref sha now p rest]
    | true =>
      by_cases hc : canWriteLanguage ex entry.name ow
      · by_cases hp : p (if ref = "" then entry.name else entry.name ++ "@" ++ ref)
        · simp [List.filter_cons, he, moveLoop, hc, hp,
            moveLoop_filter_isDir ex ow repo ref sha now p rest]
        · simp [List.filter_cons, he, moveLoop, hc, hp]
      · simp [List.filter_cons, he, moveLoop, hc,
          moveLoop_filter_isDir ex ow repo ref sha now p rest]

/-- The protected list, fetched list, error and effect trace of the
candidate loop do not depend on the cache state threaded through it. -/
theorem moveLoop_cache_indep (ex : List String) (ow : Bool)
    (repo ref sha now : String) (p : String → Bool) :
    ∀ (candidates : List FsEntry) (cache1 cache2 : List CacheEntry)
      (pAcc fAcc : List String) (eAcc : List Effect),
      (moveLoop ex ow repo ref sha now p candidates cache1 pAcc fAcc eAcc).obs
        = (moveLoop ex ow repo ref sha now p candidates cache2 pAcc fAcc eAcc).obs
  | [], _, _, _, _, _ => rfl
  | entry :: rest, cache1, cache2, pAcc, fAcc, eAcc => by
    cases he : entry.isDir with
    | false =>
      simp only [moveLoop, he, Bool.not_false, if_true]
      exact moveLoop_cache_indep ex ow repo ref sha now p rest cache1 cache2 pAcc fAcc eAcc
    | true =>
      by_cases hc : canWriteLanguage ex entry.name ow
      · by_cases hp : p (if ref = "" then entry.name else entry.name ++ "@" ++ ref)
        · simp only [moveLoop, he, Bool.not_true, Bool.false_eq_true, if_false, hc, if_true,
            ne_eq, ite_not, hp]
          exact moveLoop_cache_indep ex ow repo ref sha now p rest _ _ pAcc _ _
        · simp [moveLoop, he, hc, hp, MoveOutcome.obs]
      · simp only [moveLoop, he, Bool.not_true, Bool.false_eq_true, if_false, hc]
        exact moveLoop_cache_indep ex ow repo ref sha now p rest cache1 cache2 _ fAcc eAcc

/-- Filtering the cache to its directories does not change which names the
first loop of `moveTemplates` collects. -/
theorem existingLanguagesOf_filter (cache : List CacheEntry) :
    existingLanguagesOf (cache.filter (fun e => e.isDir)) = existingLanguagesOf cache := by
  simp [existingLanguagesOf, List.filter_filter]

/-! ## C9 -/

/-- Claim C9: only immediate subdirectories are treated as bundles.  A
regular file at the retrieved tree's template root is never copied, written
or reported protected (dropping the non-directory entries leaves the whole
outcome unchanged), and a regular file at the local cache root is never
counted as an existing bundle name (dropping the cache's non-directory
entries leaves the protected list, the fetched list and the error
unchanged). -/
theorem C9_only_directories (cache : List CacheEntry) (extracted : List FsEntry)
    (ow : Bool) (repo ref sha now : String) (p : String → Bool) :
    moveTemplates cache (extracted.filter (fun e => e.isDir)) ow repo ref sha now p
        = moveTemplates cache extracted ow repo ref sha now p
      ∧ (moveTemplates (cache.filter (fun e => e.isDir)) extracted
            ow repo ref sha now p).protectedLanguages
          = (moveTemplates cache extracted ow repo ref sha now p).protectedLanguages
      ∧ (moveTemplates (cache.filter (fun e => e.isDir)) extracted
            ow repo ref sha now p).fetchedLanguages
          = (moveTemplates cache extracted ow repo ref sha now p).fetchedLanguages
      ∧ (moveTemplates (cache.filter (fun e => e.isDir)) extracted
            ow repo ref sha now p).err
          = (moveTemplates cache extracted ow repo ref sha now p).err := by
  have hobs :
      (moveTemplates (cache.filter (fun e => e.isDir)) extracted ow repo ref sha now p).obs
        = (moveTemplates cache extracted ow repo ref sha now p).obs := by
    unfold moveTemplates
    rw [existingLanguagesOf_filter]
    exact moveLoop_cache_indep (existingLanguagesOf cache) ow repo ref sha now p
      extracted (cache.filter (fun e => e.isDir)) cache [] [] []
  refine ⟨moveLoop_filter_isDir (existingLanguagesOf cache) ow repo ref sha now p
      extracted cache [] [] [], ?_, ?_, ?_⟩
  · exact congrArg (fun t => t.1) hobs
  · exact congrArg (fun t => t.2.1) hobs
  · exact congrArg (fun t => t.2.2.1) hobs

/-! ## C6 -/

/-- Claim C6, counterexample: with two candidate bundles and a metadata
write that fails, `moveTemplates` returns the error: the failing bundle's
copied files remain in the cache, but the second candidate is never
processed and no fetched languages are reported — the run does not continue
and no warning-only outcome exists. -/
theorem C6_counterexample :
    (moveTemplates [] [⟨"python", true, "p"⟩, ⟨"node", true, "n"⟩] true "r" "" "s" "t"
        (fun _ => false)).err = some "error writing template meta"
      ∧ (moveTemplates [] [⟨"python", true, "p"⟩, ⟨"node", true, "n"⟩] true "r" "" "s" "t"
          (fun _ => false)).cache = [⟨"python", true, "p", none⟩]
      ∧ (moveTemplates [] [⟨"python", true, "p"⟩, ⟨"node", true, "n"⟩] true "r" "" "s" "t"
          (fun _ => false)).fetchedLanguages = [] := by
  decide

/-- Claim C6, amended: a failure while persisting a bundle's provenance
record aborts the whole reconciliation with an error rather than being a
bundle-local warning: the failing bundle's copied files do remain in place
(without metadata), but the remaining candidates are not processed and the
protected/fetched lists are returned empty. -/
theorem C6_persist_abort_amended (cache : List CacheEntry) (entry : FsEntry)
    (rest : List FsEntry) (ow : Bool) (repo refName sha now : String)
    (persistOk : String → Bool) (hdir : entry.isDir = true)
    (happ : canWriteLanguage (existingLanguagesOf cache) entry.name ow = true)
    (hfail : persistOk (if refName ≠ "" then entry.name ++ "@" ++ refName else entry.name)
        = false) :
    moveTemplates cache (entry :: rest) ow repo refName sha now persistOk
      = ⟨[], [], some "error writing template meta",
          copyInto cache (if refName ≠ "" then entry.name ++ "@" ++ refName else entry.name)
            entry.content,
          [Effect.copyBundle entry.name
            (if refName ≠ "" then entry.name ++ "@" ++ refName else entry.name)]⟩ := by
  simp only [ne_eq, ite_not] at hfail ⊢
  simp [moveTemplates, moveLoop, hdir, happ, hfail]

/-- Witness for C6: a concrete failing metadata write on the first of two
candidate bundles. -/
theorem C6_persist_abort_amended_witness :
    moveTemplates [] [⟨"python", true, "p"⟩, ⟨"node", true, "n"⟩] true "r" "" "s" "t"
        (fun _ => false)
      = ⟨[], [], some "error writing template meta", [⟨"python", true, "p", none⟩],
          [Effect.copyBundle "python" "python"]⟩ :=
  (C6_persist_abort_amended [] ⟨"python", true, "p"⟩ [⟨"node", true, "n"⟩] true "r" "" "s" "t"
    (fun _ => false) rfl rfl rfl).trans (by decide)

/-! ## C3 -/

theorem hasShaMarker_ne_empty {s : String} (h : hasShaMarker s = true) : s ≠ "" := by
  intro he
  subst he
  exact absurd h (by decide)

/-- Claim C3, counterexample: for `https://example.com/repo.git#sha-abc123`
(6 hex characters) the call does fail with the invalid-SHA error, but only
after the full-depth clone has been invoked — the retrieval is attempted
before the digest is validated, contradicting "before any retrieval". -/
theorem C3_counterexample :
    (fetchTemplates "https://example.com/repo.git" "sha-abc123" false [] [] "s" "t"
        (fun _ => true) true true).err
        = some "invalid SHA format: abc123 - must be 7-40 hex characters"
      ∧ Effect.invoke GitCmd.cloneFullDepth "https://example.com/repo.git"
          ∈ (fetchTemplates "https://example.com/repo.git" "sha-abc123" false [] [] "s" "t"
              (fun _ => true) true true).effects := by
  decide

/-- Claim C3, amended: a commit-digest reference whose digest part is not
7–40 hex characters makes the call fail with the invalid-SHA error after
the temporary directory is created and the full-depth clone is invoked, but
before the checkout: the effect trace is exactly the temp-dir allocation
and the clone, and the local cache is unchanged. -/
theorem C3_invalid_sha_amended (templateURL refName : String) (ow : Bool)
    (cache : List CacheEntry) (extracted : List FsEntry) (sha now : String)
    (persistOk : String → Bool) (checkoutOk : Bool)
    (hurl : templateURL ≠ "") (hsha : hasShaMarker refName = true)
    (hbad : isValidSha (trimShaMarker refName) = false) :
    fetchTemplates templateURL refName ow cache extracted sha now persistOk true checkoutOk
      = ⟨some ("invalid SHA format: " ++ trimShaMarker refName
            ++ " - must be 7-40 hex characters"),
          [Effect.mkTempDir, Effect.invoke GitCmd.cloneFullDepth templateURL], cache⟩ := by
  have hne := hasShaMarker_ne_empty hsha
  simp [fetchTemplates, hurl, hne, hsha, hbad]

/-- Witness for C3: the spec's own scenario, a 6-hex-character digest. -/
theorem C3_invalid_sha_amended_witness :
    fetchTemplates "https://example.com/repo.git" "sha-abc123" false [] [] "s" "t"
        (fun _ => true) true true
      = ⟨some ("invalid SHA format: " ++ trimShaMarker "sha-abc123"
            ++ " - must be 7-40 hex characters"),
          [Effect.mkTempDir,
            Effect.invoke GitCmd.cloneFullDepth "https://example.com/repo.git"], []⟩ :=
  C3_invalid_sha_amended "https://example.com/repo.git" "sha-abc123" false [] [] "s" "t"
    (fun _ => true) true (by decide) (by decide) (by decide)

/-- The effect trace of the post-clone phase is the clone-phase trace
followed by the reconciliation trace, on every exit path. -/
theorem fetchFinish_effects (templateURL refName : String) (ow : Bool)
    (cache : List CacheEntry) (extracted : List FsEntry) (sha now : String)
    (persistOk : String → Bool) (effs : List Effect) :
    (fetchFinish templateURL refName ow cache extracted sha now persistOk effs).effects
      = effs ++ (moveTemplates cache extracted ow templateURL refName sha now
          persistOk).effects := by
  unfold fetchFinish
  cases herr : (moveTemplates cache extracted ow templateURL refName sha now persistOk).err with
  | some e => simp [herr]
  | none =>
    by_cases hprot :
        (moveTemplates cache extracted ow templateURL refName sha now
          persistOk).protectedLanguages = [] <;>
      simp [herr, hprot]

/-- The reconciliation loop never emits a checkout effect. -/
theorem moveLoop_no_checkout (ex : List String) (ow : Bool)
    (repo ref sha now : String) (p : String → Bool) :
    ∀ (candidates : List FsEntry) (cache : List CacheEntry)
      (pAcc fAcc : List String) (eAcc : List Effect) (d : String),
      Effect.checkout d ∉ eAcc →
      Effect.checkout d
        ∉ (moveLoop ex ow repo ref sha now p candidates cache pAcc fAcc eAcc).effects
  | [], _, _, _, _, _, h => h
  | entry :: rest, cache, pAcc, fAcc, eAcc, d, h => by
    cases he : entry.isDir with
    | false =>
      simp only [moveLoop, he, Bool.not_false, if_true]
      exact moveLoop_no_checkout ex ow repo ref sha now p rest cache pAcc fAcc eAcc d h
    | true =>
      by_cases hc : canWriteLanguage ex entry.name ow
      · by_cases hp : p (if ref = "" then entry.name else entry.name ++ "@" ++ ref)
        · simp only [moveLoop, he, Bool.not_true, Bool.false_eq_true, if_false, hc, if_true,
            ne_eq, ite_not, hp]
          refine moveLoop_no_checkout ex ow repo ref sha now p rest _ _ _ _ d ?_
          simp [h]
        · simp only [moveLoop, he, Bool.not_true, Bool.false_eq_true, if_false, hc, if_true,
            ne_eq, ite_not, hp]
          simp [h]
      · simp only [moveLoop, he, Bool.not_true, Bool.false_eq_true, if_false, hc]
        exact moveLoop_no_checkout ex ow repo ref sha now p rest cache _ fAcc eAcc d h

/-! ## C7 -/

/-- Claim C7: the retrieval plan per reference kind.  A `sha-`-prefixed
reference (with a well-formed digest and a successful checkout tool call)
invokes the full-history clone and then checks out the exact digest as a
second step; an empty reference invokes the shallow default clone; a
non-empty non-digest reference invokes the branch-specific clone.  In the
latter two cases no checkout is ever emitted, because the reconciliation
loop emits none. -/
theorem C7_clone_plan (templateURL refName : String) (ow : Bool)
    (cache : List CacheEntry) (extracted : List FsEntry) (sha now : String)
    (persistOk : String → Bool) (checkoutOk : Bool) (hurl : templateURL ≠ "") :
    (hasShaMarker refName = true → isValidSha (trimShaMarker refName) = true →
        checkoutOk = true →
        (fetchTemplates templateURL refName ow cache extracted sha now persistOk true
            checkoutOk).effects
          = [Effect.mkTempDir, Effect.invoke GitCmd.cloneFullDepth templateURL,
              Effect.checkout (trimShaMarker refName)]
              ++ (moveTemplates cache extracted ow templateURL refName sha now
                  persistOk).effects)
      ∧ (refName = "" →
          (fetchTemplates templateURL refName ow cache extracted sha now persistOk true
              checkoutOk).effects
            = [Effect.mkTempDir, Effect.invoke GitCmd.cloneDefault templateURL]
                ++ (moveTemplates cache extracted ow templateURL refName sha now
                    persistOk).effects)
      ∧ (refName ≠ "" → hasShaMarker refName = false →
          (fetchTemplates templateURL refName ow cache extracted sha now persistOk true
              checkoutOk).effects
            = [Effect.mkTempDir, Effect.invoke (GitCmd.cloneBranch refName) templateURL]
                ++ (moveTemplates cache extracted ow templateURL refName sha now
                    persistOk).effects)
      ∧ (∀ d, Effect.checkout d
            ∉ (moveTemplates cache extracted ow templateURL refName sha now
                persistOk).effects) := by
  refine ⟨?_, ?_, ?_, ?_⟩
  · intro hsha hval hck
    subst hck
    have hne := hasShaMarker_ne_empty hsha
    simp [fetchTemplates, hurl, hne, hsha, hval, fetchFinish_effects]
  · intro hre
    subst hre
    simp [fetchTemplates, hurl, fetchFinish_effects]
  · intro hre hmark
    simp [fetchTemplates, hurl, hre, hmark, fetchFinish_effects]
  · intro d
    exact moveLoop_no_checkout (existingLanguagesOf cache) ow templateURL refName sha now
      persistOk extracted cache [] [] [] d (by simp)

/-- Witness for C7: a concrete well-formed commit-digest reference. -/
theorem C7_clone_plan_witness :
    (fetchTemplates "u" "sha-0123abc" false [] [] "s" "t" (fun _ => true) true true).effects
      = [Effect.mkTempDir, Effect.invoke GitCmd.cloneFullDepth "u",
          Effect.checkout (trimShaMarker "sha-0123abc")]
          ++ (moveTemplates [] [] false "u" "sha-0123abc" "s" "t" (fun _ => true)).effects :=
  (C7_clone_plan "u" "sha-0123abc" false [] [] "s" "t" (fun _ => true) true
    (by decide)).1 (by decide) (by decide) rfl

/-- The post-clone phase succeeds exactly when reconciliation returned no
error and nothing was protected. -/
theorem fetchFinish_err_none_iff (templateURL refName : String) (ow : Bool)
    (cache : List CacheEntry) (extracted : List FsEntry) (sha now : String)
    (persistOk : String → Bool) (effs : List Effect) :
    (fetchFinish templateURL refName ow cache extracted sha now persistOk effs).err = none
      ↔ (moveTemplates cache extracted ow templateURL refName sha now persistOk).err = none
        ∧ (moveTemplates cache extracted ow templateURL refName sha now
            persistOk).protectedLanguages = [] := by
  unfold fetchFinish
  cases herr : (moveTemplates cache extracted ow templateURL refName sha now persistOk).err with
  | some e => simp [herr]
  | none =>
    by_cases hprot :
        (moveTemplates cache extracted ow templateURL refName sha now
          persistOk).protectedLanguages = [] <;>
      simp [herr, hprot]

/-- When reconciliation succeeded but some language was protected, the
post-clone phase returns the protected-names error. -/
theorem fetchFinish_err_protected (templateURL refName : String) (ow : Bool)
    (cache : List CacheEntry) (extracted : List FsEntry) (sha now : String)
    (persistOk : String → Bool) (effs : List Effect)
    (herr : (moveTemplates cache extracted ow templateURL refName sha now persistOk).err
        = none)
    (hprot : (moveTemplates cache extracted ow templateURL refName sha now
        persistOk).protectedLanguages ≠ []) :
    (fetchFinish templateURL refName ow cache extracted sha now persistOk effs).err
      = some ("unable to overwrite the following: "
          ++ goStringSlice (moveTemplates cache extracted ow templateURL refName sha now
              persistOk).protectedLanguages) := by
  unfold fetchFinish
  simp [herr, hprot]

/-- Under a non-empty URL, a successful clone, and (for digest refs) a
well-formed digest and successful checkout, `fetchTemplates` reduces to the
post-clone phase with some clone-phase trace. -/
theorem fetchTemplates_reaches (templateURL refName : String) (ow : Bool)
    (cache : List CacheEntry) (extracted : List FsEntry) (sha now : String)
    (persistOk : String → Bool) (checkoutOk : Bool) (hurl : templateURL ≠ "")
    (hsha : hasShaMarker refName = true →
        isValidSha (trimShaMarker refName) = true ∧ checkoutOk = true) :
    ∃ effs,
      fetchTemplates templateURL refName ow cache extracted sha now persistOk true checkoutOk
        = fetchFinish templateURL refName ow cache extracted sha now persistOk effs := by
  by_cases hm : hasShaMarker refName = true
  · have hne := hasShaMarker_ne_empty hm
    obtain ⟨hval, hck⟩ := hsha hm
    subst hck
    refine ⟨[Effect.mkTempDir, Effect.invoke GitCmd.cloneFullDepth templateURL,
      Effect.checkout (trimShaMarker refName)], ?_⟩
    simp [fetchTemplates, hurl, hne, hm, hval]
  · have hm2 : hasShaMarker refName = false := by simpa using hm
    by_cases hre : refName = ""
    · subst hre
      refine ⟨[Effect.mkTempDir, Effect.invoke GitCmd.cloneDefault templateURL], ?_⟩
      simp [fetchTemplates, hurl]
    · refine ⟨[Effect.mkTempDir, Effect.invoke (GitCmd.cloneBranch refName) templateURL], ?_⟩
      simp [fetchTemplates, hurl, hre, hm2]

/-! ## C2 -/

/-- Claim C2, counterexample: cache has `python`, retrieved tree has
{`python`, `node`}, overwrite disabled.  `node` is approved and written
(the fetched list is non-empty), yet the call returns the
protected-languages error instead of success. -/
theorem C2_counterexample :
    (fetchTemplates "u" "" false [⟨"python", true, "old", none⟩]
        [⟨"python", true, "new"⟩, ⟨"node", true, "n"⟩] "s" "t" (fun _ => true) true true).err
        = some "unable to overwrite the following: [python]"
      ∧ (moveTemplates [⟨"python", true, "old", none⟩]
          [⟨"python", true, "new"⟩, ⟨"node", true, "n"⟩] false "u" "" "s" "t"
          (fun _ => true)).fetchedLanguages = ["node"] := by
  decide

/-- Claim C2, amended: a non-empty protected-name list is never a soft
outcome — whenever reconciliation itself succeeded but any candidate was
protected, the call fails with an error naming the protected bundles, even
when other candidates were written; the call succeeds exactly when
reconciliation succeeded and no candidate was protected. -/
theorem C2_overwrite_error_amended (templateURL refName : String) (ow : Bool)
    (cache : List CacheEntry) (extracted : List FsEntry) (sha now : String)
    (persistOk : String → Bool) (checkoutOk : Bool) (hurl : templateURL ≠ "")
    (hsha : hasShaMarker refName = true →
        isValidSha (trimShaMarker refName) = true ∧ checkoutOk = true) :
    ((fetchTemplates templateURL refName ow cache extracted sha now persistOk true
          checkoutOk).err = none
        ↔ (moveTemplates cache extracted ow templateURL refName sha now persistOk).err = none
          ∧ (moveTemplates cache extracted ow templateURL refName sha now
              persistOk).protectedLanguages = [])
      ∧ ((moveTemplates cache extracted ow templateURL refName sha now persistOk).err = none →
          (moveTemplates cache extracted ow templateURL refName sha now
            persistOk).protectedLanguages ≠ [] →
          (fetchTemplates templateURL refName ow cache extracted sha now persistOk true
              checkoutOk).err
            = some ("unable to overwrite the following: "
                ++ goStringSlice (moveTemplates cache extracted ow templateURL refName sha now
                    persistOk).protectedLanguages)) := by
  obtain ⟨effs, heq⟩ := fetchTemplates_reaches templateURL refName ow cache extracted sha now
    persistOk checkoutOk hurl hsha
  rw [heq]
  exact ⟨fetchFinish_err_none_iff templateURL refName ow cache extracted sha now persistOk effs,
    fun h1 h2 =>
      fetchFinish_err_protected templateURL refName ow cache extracted sha now persistOk effs
        h1 h2⟩

/-- Witness for C2: the concrete scenario of the counterexample, via the
amended theorem. -/
theorem C2_overwrite_error_amended_witness :
    (fetchTemplates "u" "" false [⟨"python", true, "old", none⟩]
        [⟨"python", true, "new"⟩, ⟨"node", true, "n"⟩] "s" "t" (fun _ => true) true true).err
      = some "unable to overwrite the following: [python]" :=
  ((C2_overwrite_error_amended "u" "" false [⟨"python", true, "old", none⟩]
      [⟨"python", true, "new"⟩, ⟨"node", true, "n"⟩] "s" "t" (fun _ => true) true
      (by decide) (fun h => absurd h (by decide))).2 (by decide) (by decide)).trans
    (by decide)

/-- With overwrite disabled, approval means absence from the existing
names. -/
theorem canWrite_false_notin {ex : List String} {lang : String}
    (h : canWriteLanguage ex lang false = true) : lang ∉ ex := by
  simp [canWriteLanguage] at h
  exact h

/-- With overwrite disabled, a language already present is never
approved. -/
theorem canWrite_false_of_mem {ex : List String} {lang : String} (h : lang ∈ ex) :
    canWriteLanguage ex lang false = false := by
  simp [canWriteLanguage, h]

/-- A cache entry whose name differs from the copy destination is untouched
by the copy. -/
theorem mem_copyInto_of_ne (e : CacheEntry) (d v : String) :
    ∀ (c : List CacheEntry), e ∈ c → e.name ≠ d → e ∈ copyInto c d v
  | [], he, _ => absurd he (List.not_mem_nil e)
  | a :: rest, he, hne => by
    by_cases ha : a.name = d
    · rw [copyInto, if_pos ha]
      rcases List.mem_cons.mp he with rfl | htail
      · exact absurd ha hne
      · exact List.mem_cons_of_mem _ htail
    · rw [copyInto, if_neg ha]
      rcases List.mem_cons.mp he with rfl | htail
      · exact List.mem_cons_self _ _
      · exact List.mem_cons_of_mem _ (mem_copyInto_of_ne e d v rest htail hne)

/-- A cache entry whose name differs from the metadata destination is
untouched by the metadata write. -/
theorem mem_writeMetaInto_of_ne (e : CacheEntry) (d : String) (m : TemplateMeta) :
    ∀ (c : List CacheEntry), e ∈ c → e.name ≠ d → e ∈ writeMetaInto c d m
  | [], he, _ => absurd he (List.not_mem_nil e)
  | a :: rest, he, hne => by
    by_cases ha : a.name = d
    · rw [writeMetaInto, if_pos ha]
      rcases List.mem_cons.mp he with rfl | htail
      · exact absurd ha hne
      · exact List.mem_cons_of_mem _ htail
    · rw [writeMetaInto, if_neg ha]
      rcases List.mem_cons.mp he with rfl | htail
      · exact List.mem_cons_self _ _
      · exact List.mem_cons_of_mem _ (mem_writeMetaInto_of_ne e d m rest htail hne)

/-- Looking up a name other than the copy destination is unaffected by the
copy. -/
theorem lookup_copyInto_other (d v n : String) (hne : n ≠ d) :
    ∀ (c : List CacheEntry), lookupEntry (copyInto c d v) n = lookupEntry c n
  | [] => by simp [copyInto, lookupEntry, Ne.symm hne]
  | a :: rest => by
    by_cases ha : a.name = d
    · have han : a.name ≠ n := by
        rw [ha]
        exact Ne.symm hne
      simp [copyInto, ha, lookupEntry, han, Ne.symm hne]
    · by_cases han : a.name = n
      · simp [copyInto, ha, lookupEntry, han, hne]
      · simp [copyInto, ha, lookupEntry, han, lookup_copyInto_other d v n hne rest]

/-- Looking up a name other than the metadata destination is unaffected by
the metadata write. -/
theorem lookup_writeMetaInto_other (d n : String) (m : TemplateMeta) (hne : n ≠ d) :
    ∀ (c : List CacheEntry), lookupEntry (writeMetaInto c d m) n = lookupEntry c n
  | [] => by simp [writeMetaInto, lookupEntry, Ne.symm hne]
  | a :: rest => by
    by_cases ha : a.name = d
    · have han : a.name ≠ n := by
        rw [ha]
        exact Ne.symm hne
      simp [writeMetaInto, ha, lookupEntry, han, Ne.symm hne]
    · by_cases han : a.name = n
      · simp [writeMetaInto, ha, lookupEntry, han, hne]
      · simp [writeMetaInto, ha, lookupEntry, han,
          lookup_writeMetaInto_other d n m hne rest]

/-- After copying a bundle and writing its metadata, the destination entry
holds exactly the copied content and the fresh metadata. -/
theorem lookup_copy_then_meta (d v : String) (m : TemplateMeta) :
    ∀ (c : List CacheEntry),
      lookupEntry (writeMetaInto (copyInto c d v) d m) d = some ⟨d, true, v, some m⟩
  | [] => by simp [copyInto, writeMetaInto, lookupEntry]
  | a :: rest => by
    obtain ⟨nm, dir, ct, mt⟩ := a
    by_cases ha : nm = d
    · subst ha
      simp [copyInto, writeMetaInto, lookupEntry]
    · simp [copyInto, writeMetaInto, ha, lookupEntry, lookup_copy_then_meta d v m rest]

/-- With an empty ref name, the reconcile loop leaves the lookup of any
name that no directory candidate carries unchanged. -/
theorem moveLoop_lookup_preserved (ex : List String) (ow : Bool) (repo sha now : String)
    (p : String → Bool) (n : String) :
    ∀ (candidates : List FsEntry) (cache : List CacheEntry)
      (pAcc fAcc : List String) (eAcc : List Effect),
      (∀ c ∈ candidates, c.isDir = true → c.name ≠ n) →
      lookupEntry (moveLoop ex ow repo "" sha now p candidates cache pAcc fAcc eAcc).cache n
        = lookupEntry cache n
  | [], cache, pAcc, fAcc, eAcc, _ => rfl
  | entry :: rest, cache, pAcc, fAcc, eAcc, h => by
    have htail : ∀ c ∈ rest, c.isDir = true → c.name ≠ n := fun c hc =>
      h c (List.mem_cons_of_mem _ hc)
    cases hd : entry.isDir with
    | false =>
      simp only [moveLoop, hd, Bool.not_false, if_true]
      exact moveLoop_lookup_preserved ex ow repo sha now p n rest cache pAcc fAcc eAcc htail
    | true =>
      have hne : entry.name ≠ n := h entry (List.mem_cons_self _ _) hd
      by_cases hc : canWriteLanguage ex entry.name ow
      · by_cases hp : p entry.name
        · simp only [moveLoop, hd, Bool.not_true, Bool.false_eq_true, if_false, hc, if_true,
            ne_eq, not_true_eq_false, ite_false, ite_self, hp]
          rw [moveLoop_lookup_preserved ex ow repo sha now p n rest _ pAcc _ _ htail,
            lookup_writeMetaInto_other _ _ _ (Ne.symm hne),
            lookup_copyInto_other _ _ _ (Ne.symm hne)]
        · simp only [moveLoop, hd, Bool.not_true, Bool.false_eq_true, if_false, hc, if_true,
            ne_eq, not_true_eq_false, ite_false, ite_self, hp]
          exact lookup_copyInto_other _ _ _ (Ne.symm hne) cache
      · simp only [moveLoop, hd, Bool.not_true, Bool.false_eq_true, if_false, hc]
        exact moveLoop_lookup_preserved ex ow repo sha now p n rest cache _ fAcc eAcc htail

/-- With overwrite disabled and an empty ref name, every directory entry of
the cache survives the reconcile loop untouched, provided its name is among
the existing languages the loop protects. -/
theorem moveLoop_mem_preserved (ex : List String) (repo sha now : String)
    (p : String → Bool) (e : CacheEntry) (hex : e.name ∈ ex) :
    ∀ (candidates : List FsEntry) (cache : List CacheEntry)
      (pAcc fAcc : List String) (eAcc : List Effect), e ∈ cache →
      e ∈ (moveLoop ex false repo "" sha now p candidates cache pAcc fAcc eAcc).cache
  | [], cache, pAcc, fAcc, eAcc, he => he
  | entry :: rest, cache, pAcc, fAcc, eAcc, he => by
    cases hd : entry.isDir with
    | false =>
      simp only [moveLoop, hd, Bool.not_false, if_true]
      exact moveLoop_mem_preserved ex repo sha now p e hex rest cache pAcc fAcc eAcc he
    | true =>
      by_cases hc : canWriteLanguage ex entry.name false
      · have hnin : entry.name ∉ ex := canWrite_false_notin hc
        have hne : e.name ≠ entry.name := fun hq => hnin (hq ▸ hex)
        by_cases hp : p entry.name
        · simp only [moveLoop, hd, Bool.not_true, Bool.false_eq_true, if_false, hc, if_true,
            ne_eq, not_true_eq_false, ite_false, ite_self, hp]
          exact moveLoop_mem_preserved ex repo sha now p e hex rest _ pAcc _ _
            (mem_writeMetaInto_of_ne e _ _ _ (mem_copyInto_of_ne e _ _ cache he hne) hne)
        · simp only [moveLoop, hd, Bool.not_true, Bool.false_eq_true, if_false, hc, if_true,
            ne_eq, not_true_eq_false, ite_false, ite_self, hp]
          exact mem_copyInto_of_ne e _ _ cache he hne
      · simp only [moveLoop, hd, Bool.not_true, Bool.false_eq_true, if_false, hc]
        exact moveLoop_mem_preserved ex repo sha now p e hex rest cache _ fAcc eAcc he

/-- With overwrite disabled, an empty ref name and always-succeeding
metadata writes, the protected list collects exactly the directory
candidates whose names already exist, in candidate order. -/
theorem moveLoop_protected (ex : List String) (repo sha now : String)
    (p : String → Bool) (hp : ∀ d, p d = true) :
    ∀ (candidates : List FsEntry) (cache : List CacheEntry)
      (pAcc fAcc : List String) (eAcc : List Effect),
      (moveLoop ex false repo "" sha now p candidates cache pAcc fAcc eAcc).protectedLanguages
        = pAcc ++ (candidates.filter (fun c => c.isDir && ex.contains c.name)).map
            (fun c => c.name)
  | [], cache, pAcc, fAcc, eAcc => by simp [moveLoop]
  | entry :: rest, cache, pAcc, fAcc, eAcc => by
    cases hd : entry.isDir with
    | false =>
      simp [moveLoop, hd, List.filter_cons,
        moveLoop_protected ex repo sha now p hp rest cache pAcc fAcc eAcc]
    | true =>
      by_cases hm : entry.name ∈ ex
      · have hc := canWrite_false_of_mem hm
        simp [moveLoop, hd, hc, hm, List.filter_cons, List.append_assoc,
          moveLoop_protected ex repo sha now p hp rest cache _ fAcc eAcc]
      · have hc : canWriteLanguage ex entry.name false = true := by
          simp [canWriteLanguage, hm]
        simp [moveLoop, hd, hc, hm, hp entry.name, List.filter_cons,
          moveLoop_protected ex repo sha now p hp rest _ pAcc _ _]

/-- With overwrite enabled, an empty ref name, always-succeeding metadata
writes and pairwise-distinct directory candidate names, every directory
candidate ends up in the cache under its own name with its own content and
fresh metadata. -/
theorem moveLoop_overwrite_lookup (ex : List String) (repo sha now : String)
    (p : String → Bool) (hp : ∀ d, p d = true) :
    ∀ (candidates : List FsEntry) (cache : List CacheEntry)
      (pAcc fAcc : List String) (eAcc : List Effect),
      ((candidates.filter (fun c => c.isDir)).map (fun c => c.name)).Nodup →
      ∀ c ∈ candidates, c.isDir = true →
        lookupEntry (moveLoop ex true repo "" sha now p candidates cache pAcc fAcc eAcc).cache
            c.name
          = some ⟨c.name, true, c.content, some ⟨repo, "", sha, now⟩⟩
  | [], cache, pAcc, fAcc, eAcc, _, c, hc, _ => absurd hc (List.not_mem_nil c)
  | entry :: rest, cache, pAcc, fAcc, eAcc, hnd, c, hc, hcd => by
    cases hd : entry.isDir with
    | false =>
      have hrest : c ∈ rest := by
        rcases List.mem_cons.mp hc with rfl | h
        · rw [hcd] at hd
          exact absurd hd (by simp)
        · exact h
      have hndtail : ((rest.filter (fun c => c.isDir)).map (fun c => c.name)).Nodup := by
        simpa [List.filter_cons, hd] using hnd
      simp only [moveLoop, hd, Bool.not_false, if_true]
      exact moveLoop_overwrite_lookup ex repo sha now p hp rest cache pAcc fAcc eAcc
        hndtail c hrest hcd
    | true =>
      have hnd2 : entry.name ∉ (rest.filter (fun c => c.isDir)).map (fun c => c.name)
          ∧ ((rest.filter (fun c => c.isDir)).map (fun c => c.name)).Nodup := by
        have := hnd
        rw [List.filter_cons, if_pos (by simp [hd])] at this
        exact List.nodup_cons.mp (by simpa using this)
      have hrestne : ∀ x ∈ rest, x.isDir = true → x.name ≠ entry.name := by
        intro x hx hxd heq
        exact hnd2.1 (heq ▸ List.mem_map_of_mem _ (List.mem_filter.mpr ⟨hx, by simp [hxd]⟩))
      have hcw : canWriteLanguage ex entry.name true = true := rfl
      simp only [moveLoop, hd, Bool.not_true, Bool.false_eq_true, if_false, hcw, if_true,
        ne_eq, not_true_eq_false, ite_false, ite_self, hp entry.name]
      rcases List.mem_cons.mp hc with rfl | hrest
      · rw [moveLoop_lookup_preserved ex true repo sha now p c.name rest _ pAcc _ _ hrestne]
        exact lookup_copy_then_meta c.name c.content ⟨repo, "", sha, now⟩ cache
      · exact moveLoop_overwrite_lookup ex repo sha now p hp rest _ pAcc _ _
          hnd2.2 c hrest hcd

/-! ## C1 -/

/-- Claim C1, counterexample: cache holds the pinned bundle `python@dev`,
the retrieved tree offers `python`, ref name `dev`, overwrite disabled.
The protection check uses the bare language name, so the candidate is
approved and the existing `python@dev` bundle is overwritten — its original
entry is gone — while the protected list stays empty. -/
theorem C1_counterexample :
    ((⟨"python@dev", true, "old", none⟩ : CacheEntry)
        ∉ (moveTemplates [⟨"python@dev", true, "old", none⟩] [⟨"python", true, "new"⟩]
            false "r" "dev" "s" "t" (fun _ => true)).cache)
      ∧ (moveTemplates [⟨"python@dev", true, "old", none⟩] [⟨"python", true, "new"⟩]
          false "r" "dev" "s" "t" (fun _ => true)).protectedLanguages = [] := by
  decide

/-- Claim C1, amended: for references with an empty ref name (and
successful metadata writes), reconciliation with overwrite disabled leaves
every directory bundle of the cache byte-unchanged — its entry survives
verbatim — and records as protected exactly the directory candidates whose
names already exist, in candidate order; with overwrite enabled (and
pairwise-distinct candidate names) every directory candidate replaces the
same-named cache entry with its own content plus fresh metadata.  With a
non-empty ref name the protection check uses the bare language name while
the write goes to `name@ref`, so an existing pinned bundle can be
overwritten even with overwrite disabled. -/
theorem C1_overwrite_protection_amended (cache : List CacheEntry) (extracted : List FsEntry)
    (repository sha now : String) (persistOk : String → Bool)
    (hp : ∀ d, persistOk d = true) :
    ((∀ e ∈ cache, e.isDir = true →
        e ∈ (moveTemplates cache extracted false repository "" sha now persistOk).cache)
      ∧ (moveTemplates cache extracted false repository "" sha now
            persistOk).protectedLanguages
          = (extracted.filter
              (fun c => c.isDir && (existingLanguagesOf cache).contains c.name)).map
              (fun c => c.name))
      ∧ (((extracted.filter (fun c => c.isDir)).map (fun c => c.name)).Nodup →
          ∀ c ∈ extracted, c.isDir = true →
            lookupEntry
                (moveTemplates cache extracted true repository "" sha now persistOk).cache
                c.name
              = some ⟨c.name, true, c.content, some ⟨repository, "", sha, now⟩⟩) := by
  refine ⟨⟨?_, ?_⟩, ?_⟩
  · intro e he hdir
    have hex : e.name ∈ existingLanguagesOf cache := by
      simp only [existingLanguagesOf]
      exact List.mem_map_of_mem _ (List.mem_filter.mpr ⟨he, by simp [hdir]⟩)
    exact moveLoop_mem_preserved (existingLanguagesOf cache) repository sha now persistOk
      e hex extracted cache [] [] [] he
  · simpa using moveLoop_protected (existingLanguagesOf cache) repository sha now persistOk
      hp extracted cache [] [] []
  · intro hnd c hc hcd
    exact moveLoop_overwrite_lookup (existingLanguagesOf cache) repository sha now persistOk
      hp extracted cache [] [] [] hnd c hc hcd

/-- Witness for C1: the spec's scenario with an empty ref name — cache has
`python`, tree has {`python`, `node`}, overwrite disabled: the original
`python` entry survives and is the one protected name; and with overwrite
enabled a candidate `python` replaces the cache's `python` entry. -/
theorem C1_overwrite_protection_amended_witness :
    ((⟨"python", true, "old-bytes", none⟩ : CacheEntry)
        ∈ (moveTemplates [⟨"python", true, "old-bytes", none⟩]
            [⟨"python", true, "new-bytes"⟩, ⟨"node", true, "node-bytes"⟩]
            false "r" "" "s" "t" (fun _ => true)).cache)
      ∧ (moveTemplates [⟨"python", true, "old-bytes", none⟩]
          [⟨"python", true, "new-bytes"⟩, ⟨"node", true, "node-bytes"⟩]
          false "r" "" "s" "t" (fun _ => true)).protectedLanguages = ["python"]
      ∧ lookupEntry (moveTemplates [⟨"python", true, "old", none⟩] [⟨"python", true, "new"⟩]
          true "r" "" "s" "t" (fun _ => true)).cache "python"
          = some ⟨"python", true, "new", some ⟨"r", "", "s", "t"⟩⟩ := by
  have h1 := C1_overwrite_protection_amended [⟨"python", true, "old-bytes", none⟩]
    [⟨"python", true, "new-bytes"⟩, ⟨"node", true, "node-bytes"⟩] "r" "s" "t"
    (fun _ => true) (fun _ => rfl)
  have h2 := C1_overwrite_protection_amended [⟨"python", true, "old", none⟩]
    [⟨"python", true, "new"⟩] "r" "s" "t" (fun _ => true) (fun _ => rfl)
  refine ⟨h1.1.1 _ (by simp) rfl, (h1.1.2).trans (by decide), ?_⟩
  have h3 := h2.2 (by decide) ⟨"python", true, "new"⟩ (by simp) rfl
  simpa using h3

/-! ## C10 -/

/-- Claim C10: for the empty repository URL, `fetchTemplates` returns an
error immediately: no temporary directory is created, no git command is
invoked (empty effect trace) and the local cache is unchanged. -/
theorem C10_empty_url (refName : String) (overwriteTemplates : Bool)
    (cache : List CacheEntry) (extracted : List FsEntry) (sha now : String)
    (persistOk : String → Bool) (cloneOk checkoutOk : Bool) :
    fetchTemplates "" refName overwriteTemplates cache extracted sha now persistOk
        cloneOk checkoutOk
      = ⟨some "pass valid templateURL", [], cache⟩ := by
  simp [fetchTemplates]

end FaasCli
